import Mathlib

/-!
# Verification of the ispl3 retrieval pipeline

A shallow embedding, in Lean 4, of the pure computational core of the ispl3
insurance-document RAG backend (`src/backend`), together with proofs of the
behavioural claims made by its specification.

Embedding conventions:
* Python `float` scores are modelled as `ℚ` (all score arithmetic in the
  sources is plain `+ * / max min` on small decimal literals).
* Database ids are modelled as `ℤ`, token counts as `ℕ`.
* `tiktoken` token counting (`len(self.encoding.encode(s))`) is modelled by an
  arbitrary function `enc : String → ℕ`: every theorem holds for every
  tokenizer.
* Python dictionaries are modelled as insertion-ordered association lists with
  Python's update semantics (overwrite in place, append when new).
* Python `needle in haystack` on strings is modelled as list-infix on the
  underlying character lists.
-/

/-- Is `needle` a contiguous sublist starting at some position of `haystack`?
(Executable form of list-infix.) -/
def pyInCharList (needle : List Char) : List Char → Bool
  | [] => needle.isEmpty
  | c :: rest => needle.isPrefixOf (c :: rest) || pyInCharList needle rest

/-- Python `needle in haystack` substring test. -/
def pyIn (needle haystack : String) : Bool :=
  pyInCharList needle.data haystack.data

/-- Python `str.lower()`, character-wise (`Char.toLower`; identity on Korean,
which has no case). -/
def pyLower (s : String) : String :=
  String.mk (s.data.map Char.toLower)

/-- `services/vector_search.py` — the `VectorSearchResult` transport record.
Fields not used by any claim (`document_filename`, `document_type`,
`company_name`, free-form `metadata`) are elided. -/
structure VectorSearchResult where
  chunk_id : ℤ
  document_id : ℤ
  content : String
  similarity : ℚ
  chunk_type : String
  page_number : Option ℤ := none
  section_title : Option String := none
  clause_number : Option String := none
  deriving Repr, DecidableEq

namespace HybridSearchService

/-- `hybrid_search.py` — `RRF_K = 60`. -/
def RRF_K : ℕ := 60

/-- `hybrid_search.py` — `MAX_CONTEXT_TOKENS = 20000`. -/
def MAX_CONTEXT_TOKENS : ℕ := 20000

/-- One Python-dict score accumulation
`scores[chunk_id] = scores.get(chunk_id, 0.0) + score`:
update in place when the key exists, append at the end otherwise. -/
def addScore : List (ℤ × ℚ) → ℤ → ℚ → List (ℤ × ℚ)
  | [], cid, s => [(cid, s)]
  | (c, v) :: rest, cid, s =>
      if c = cid then (c, v + s) :: rest else (c, v) :: addScore rest cid s

/-- The `for rank, result in enumerate(results)` accumulation loop of
`reciprocal_rank_fusion`, with the rank carried explicitly. -/
def rrfAccum (k : ℕ) : List VectorSearchResult → ℕ → List (ℤ × ℚ) → List (ℤ × ℚ)
  | [], _, scores => scores
  | r :: rest, rank, scores =>
      rrfAccum k rest (rank + 1) (addScore scores r.chunk_id (1 / ((k : ℚ) + rank + 1)))

/-- `HybridSearchService.reciprocal_rank_fusion`.  Python's
`sorted(scores.items(), key=lambda x: x[1], reverse=True)` is the stable
descending sort by score, i.e. `mergeSort` with `le a b := b.2 ≤ a.2`.
`k = None` resolves to `RRF_K`. -/
def reciprocal_rank_fusion (vector_results keyword_results : List VectorSearchResult)
    (k : Option ℕ) : List (ℤ × ℚ) :=
  let kk := k.getD RRF_K
  let scores := rrfAccum kk keyword_results 0 (rrfAccum kk vector_results 0 [])
  scores.mergeSort (fun a b => decide (b.2 ≤ a.2))

/-- The RRF score the spec assigns to `cid`: the sum of `1/(k + r + 1)` over
every 0-indexed rank `r` (counted from `rank`) at which `cid` occurs. -/
def rrfContrib (k : ℕ) (cid : ℤ) : List VectorSearchResult → ℕ → ℚ
  | [], _ => 0
  | r :: rest, rank =>
      (if r.chunk_id = cid then 1 / ((k : ℚ) + rank + 1) else 0) + rrfContrib k cid rest (rank + 1)

/-- First-match association lookup with default `0.0` (Python `scores.get(cid, 0.0)`). -/
def lookupScore : List (ℤ × ℚ) → ℤ → ℚ
  | [], _ => 0
  | (c, v) :: rest, cid => if c = cid then v else lookupScore rest cid

end HybridSearchService

namespace HybridSearchService

theorem lookupScore_addScore (sc : List (ℤ × ℚ)) (c : ℤ) (s : ℚ) (c' : ℤ) :
    lookupScore (addScore sc c s) c' = lookupScore sc c' + (if c = c' then s else 0) := by
  induction sc with
  | nil => simp [addScore, lookupScore]
  | cons p rest ih =>
      obtain ⟨a, v⟩ := p
      by_cases hac : a = c
      · subst hac
        by_cases h : a = c' <;> simp [addScore, lookupScore, h]
      · by_cases h : a = c'
        · have hcc : ¬ c = c' := fun hh => hac (h.trans hh.symm)
          have hcc' : ¬ c' = c := fun hh => hcc hh.symm
          simp [addScore, lookupScore, hac, h, hcc, hcc']
        · simp [addScore, lookupScore, hac, h, ih]

theorem keys_addScore (sc : List (ℤ × ℚ)) (c : ℤ) (s : ℚ) :
    (addScore sc c s).map Prod.fst =
      if c ∈ sc.map Prod.fst then sc.map Prod.fst else sc.map Prod.fst ++ [c] := by
  induction sc with
  | nil => simp [addScore]
  | cons p rest ih =>
      obtain ⟨a, v⟩ := p
      by_cases hac : a = c
      · simp [addScore, hac]
      · by_cases hmem : c ∈ rest.map Prod.fst <;>
          simp [addScore, hac, hmem, ih, Ne.symm hac]

theorem nodup_keys_addScore {sc : List (ℤ × ℚ)} (h : (sc.map Prod.fst).Nodup)
    (c : ℤ) (s : ℚ) : ((addScore sc c s).map Prod.fst).Nodup := by
  rw [keys_addScore]
  by_cases hmem : c ∈ sc.map Prod.fst
  · simpa [hmem] using h
  · simp only [hmem, if_false]
    exact List.Nodup.append h (List.nodup_singleton c) (by simpa using hmem)

theorem lookupScore_rrfAccum (k : ℕ) (l : List VectorSearchResult) :
    ∀ (rank : ℕ) (sc : List (ℤ × ℚ)) (cid : ℤ),
      lookupScore (rrfAccum k l rank sc) cid = lookupScore sc cid + rrfContrib k cid l rank := by
  induction l with
  | nil => intro rank sc cid; simp [rrfAccum, rrfContrib]
  | cons r rest ih =>
      intro rank sc cid
      rw [rrfAccum, ih, lookupScore_addScore, rrfContrib]
      by_cases h : r.chunk_id = cid <;> simp [h] <;> ring

theorem keys_rrfAccum_nodup (k : ℕ) (l : List VectorSearchResult) :
    ∀ (rank : ℕ) (sc : List (ℤ × ℚ)), (sc.map Prod.fst).Nodup →
      ((rrfAccum k l rank sc).map Prod.fst).Nodup := by
  induction l with
  | nil => intro rank sc h; simpa [rrfAccum] using h
  | cons r rest ih =>
      intro rank sc h
      exact ih (rank + 1) _ (nodup_keys_addScore h _ _)

theorem mem_keys_rrfAccum (k : ℕ) (l : List VectorSearchResult) :
    ∀ (rank : ℕ) (sc : List (ℤ × ℚ)) (cid : ℤ),
      cid ∈ (rrfAccum k l rank sc).map Prod.fst ↔
        cid ∈ sc.map Prod.fst ∨ ∃ r ∈ l, r.chunk_id = cid := by
  induction l with
  | nil => intro rank sc cid; simp [rrfAccum]
  | cons r rest ih =>
      intro rank sc cid
      rw [rrfAccum, ih, keys_addScore]
      by_cases hmem : r.chunk_id ∈ sc.map Prod.fst
      · simp only [hmem, if_true]
        constructor
        · rintro (h | ⟨r', hr', rfl⟩)
          · exact Or.inl h
          · exact Or.inr ⟨r', List.mem_cons_of_mem r hr', rfl⟩
        · rintro (h | ⟨r', hr', rfl⟩)
          · exact Or.inl h
          · rcases List.mem_cons.mp hr' with rfl | hr''
            · exact Or.inl hmem
            · exact Or.inr ⟨r', hr'', rfl⟩
      · simp only [hmem, if_false, List.mem_append, List.mem_singleton]
        constructor
        · rintro ((h | h) | ⟨r', hr', rfl⟩)
          · exact Or.inl h
          · exact Or.inr ⟨r, List.mem_cons_self r rest, h.symm⟩
          · exact Or.inr ⟨r', List.mem_cons_of_mem r hr', rfl⟩
        · rintro (h | ⟨r', hr', rfl⟩)
          · exact Or.inl (Or.inl h)
          · rcases List.mem_cons.mp hr' with rfl | hr''
            · exact Or.inl (Or.inr rfl)
            · exact Or.inr ⟨r', hr'', rfl⟩

theorem lookup_of_mem_nodup :
    ∀ {sc : List (ℤ × ℚ)}, (sc.map Prod.fst).Nodup → ∀ {p : ℤ × ℚ}, p ∈ sc →
      lookupScore sc p.1 = p.2 := by
  intro sc
  induction sc with
  | nil => intro _ p h; simp at h
  | cons q rest ih =>
      intro hnd p hp
      obtain ⟨a, v⟩ := q
      rw [List.map_cons] at hnd
      rcases List.mem_cons.mp hp with rfl | hp
      · simp [lookupScore]
      · have ha : a ≠ p.1 := by
          intro h
          have hmem : p.1 ∈ rest.map Prod.fst := List.mem_map_of_mem Prod.fst hp
          rw [← h] at hmem
          exact (List.nodup_cons.mp hnd).1 hmem
        simp only [lookupScore, if_neg ha]
        exact ih (List.nodup_cons.mp hnd).2 hp

theorem rrf_perm (vres kres : List VectorSearchResult) :
    (reciprocal_rank_fusion vres kres none).Perm
      (rrfAccum RRF_K kres 0 (rrfAccum RRF_K vres 0 [])) := by
  unfold reciprocal_rank_fusion
  exact List.mergeSort_perm _ _

theorem rrf_keys_nodup (vres kres : List VectorSearchResult) :
    ((rrfAccum RRF_K kres 0 (rrfAccum RRF_K vres 0 [])).map Prod.fst).Nodup :=
  keys_rrfAccum_nodup RRF_K kres 0 _ (keys_rrfAccum_nodup RRF_K vres 0 [] (by simp))

theorem rrf_score_of_mem (vres kres : List VectorSearchResult) {p : ℤ × ℚ}
    (hp : p ∈ reciprocal_rank_fusion vres kres none) :
    p.2 = rrfContrib 60 p.1 vres 0 + rrfContrib 60 p.1 kres 0 := by
  have hmem : p ∈ rrfAccum RRF_K kres 0 (rrfAccum RRF_K vres 0 []) :=
    (rrf_perm vres kres).mem_iff.mp hp
  have := lookup_of_mem_nodup (rrf_keys_nodup vres kres) hmem
  rw [lookupScore_rrfAccum, lookupScore_rrfAccum] at this
  simp only [lookupScore, zero_add] at this
  rw [← this]
  rfl

theorem rrf_fst_nodup (vres kres : List VectorSearchResult) :
    ((reciprocal_rank_fusion vres kres none).map Prod.fst).Nodup :=
  (((rrf_perm vres kres).map Prod.fst).nodup_iff).mpr (rrf_keys_nodup vres kres)

theorem rrf_pairwise (vres kres : List VectorSearchResult) :
    (reciprocal_rank_fusion vres kres none).Pairwise (fun a b => b.2 ≤ a.2) := by
  unfold reciprocal_rank_fusion
  have := @List.sorted_mergeSort (ℤ × ℚ) (fun a b : ℤ × ℚ => decide (b.2 ≤ a.2))
    (by intro a b c h1 h2; simp only [decide_eq_true_eq] at h1 h2 ⊢; exact le_trans h2 h1)
    (by intro a b; simp only [Bool.or_eq_true, decide_eq_true_eq]; exact le_total b.2 a.2)
    (rrfAccum (Option.getD none RRF_K) kres 0 (rrfAccum (Option.getD none RRF_K) vres 0 []))
  exact this.imp (by intro a b h; simpa using h)

theorem rrf_mem_keys_iff (vres kres : List VectorSearchResult) (cid : ℤ) :
    (∃ p ∈ reciprocal_rank_fusion vres kres none, p.1 = cid) ↔
      ((∃ r ∈ vres, r.chunk_id = cid) ∨ ∃ r ∈ kres, r.chunk_id = cid) := by
  have h1 : (∃ p ∈ reciprocal_rank_fusion vres kres none, p.1 = cid) ↔
      cid ∈ (reciprocal_rank_fusion vres kres none).map Prod.fst := by
    simp [List.mem_map, eq_comm]
  rw [h1, (((rrf_perm vres kres).map Prod.fst)).mem_iff, mem_keys_rrfAccum, mem_keys_rrfAccum]
  simp [or_comm, or_assoc]

end HybridSearchService

open HybridSearchService in
/-- **C1** (Reciprocal Rank Fusion, `HybridSearchService.reciprocal_rank_fusion`):
for every pair of ranked result lists, the fusion with the default `k = 60`
assigns each `chunk_id` the score `Σ 1/(k + r + 1)` over every 0-indexed rank
`r` at which that `chunk_id` occurs in either list (both lists contribute), the
returned `chunk_id`s are exactly those occurring in either list, each appears
once, and the pairs are sorted in descending (non-increasing) order of score. -/
theorem rrf_fusion_correct (vres kres : List VectorSearchResult) :
    (∀ p ∈ reciprocal_rank_fusion vres kres none,
        p.2 = rrfContrib 60 p.1 vres 0 + rrfContrib 60 p.1 kres 0) ∧
    ((reciprocal_rank_fusion vres kres none).map Prod.fst).Nodup ∧
    (reciprocal_rank_fusion vres kres none).Pairwise (fun a b => b.2 ≤ a.2) ∧
    (∀ cid : ℤ, (∃ p ∈ reciprocal_rank_fusion vres kres none, p.1 = cid) ↔
        ((∃ r ∈ vres, r.chunk_id = cid) ∨ ∃ r ∈ kres, r.chunk_id = cid)) :=
  ⟨fun _ hp => rrf_score_of_mem vres kres hp, rrf_fst_nodup vres kres,
    rrf_pairwise vres kres, rrf_mem_keys_iff vres kres⟩

namespace HybridSearchService

/-- The `for result in search_results` token-budget loop of
`HybridSearchService.optimize_context`: include while the running total plus
the chunk's token count stays within `max_tokens`, `break` at the first chunk
that would exceed it. -/
def optLoop (enc : String → ℕ) (max_tokens : ℕ) :
    List VectorSearchResult → ℕ → List VectorSearchResult × ℕ
  | [], total => ([], total)
  | r :: rest, total =>
      let tokens := enc r.content
      if total + tokens ≤ max_tokens then
        let res := optLoop enc max_tokens rest (total + tokens)
        (r :: res.1, res.2)
      else ([], total)

/-- `HybridSearchService.optimize_context` (`max_tokens = None` resolves to
`MAX_CONTEXT_TOKENS`). -/
def optimize_context (enc : String → ℕ) (search_results : List VectorSearchResult)
    (max_tokens : Option ℕ) : List VectorSearchResult × ℕ :=
  optLoop enc (max_tokens.getD MAX_CONTEXT_TOKENS) search_results 0


theorem optLoop_spec (enc : String → ℕ) (max_tokens : ℕ) :
    ∀ (l : List VectorSearchResult) (total : ℕ), total ≤ max_tokens →
      ∃ n, ∃ hn : n ≤ l.length,
        optLoop enc max_tokens l total =
          (l.take n, total + ((l.take n).map (fun r => enc r.content)).sum) ∧
        total + ((l.take n).map (fun r => enc r.content)).sum ≤ max_tokens ∧
        (∀ i (hi : i < n), total + ((l.take i).map (fun r => enc r.content)).sum +
            enc (l.get ⟨i, hi.trans_le hn⟩).content ≤ max_tokens) ∧
        (∀ hl : n < l.length, total + ((l.take n).map (fun r => enc r.content)).sum +
            enc (l.get ⟨n, hl⟩).content > max_tokens) := by
  intro l
  induction l with
  | nil =>
      intro total htot
      refine ⟨0, Nat.le_refl 0, by simp [optLoop], by simpa using htot, ?_, ?_⟩
      · intro i hi; exact absurd hi (Nat.not_lt_zero i)
      · intro hl; simp at hl
  | cons r rest ih =>
      intro total htot
      by_cases hfit : total + enc r.content ≤ max_tokens
      · obtain ⟨n, hn, heq, hbound, hinc, hstop⟩ := ih (total + enc r.content) hfit
        refine ⟨n + 1, by simpa using Nat.succ_le_succ hn, ?_, ?_, ?_, ?_⟩
        · simp only [optLoop, hfit, if_true, List.take_succ_cons, heq]
          simp [Nat.add_assoc]
        · simpa [List.take_succ_cons, Nat.add_assoc] using hbound
        · intro i hi
          match i with
          | 0 => simpa using hfit
          | Nat.succ j =>
              have hj : j < n := Nat.lt_of_succ_lt_succ hi
              have := hinc j hj
              simpa [List.take_succ_cons, Nat.add_assoc] using this
        · intro hl
          have hl' : n < rest.length := Nat.lt_of_succ_lt_succ hl
          have := hstop hl'
          simpa [List.take_succ_cons, Nat.add_assoc] using this
      · refine ⟨0, Nat.zero_le _, ?_, by simpa using htot, ?_, ?_⟩
        · simp [optLoop, hfit]
        · intro i hi; exact absurd hi (Nat.not_lt_zero i)
        · intro _; simpa using Nat.lt_of_not_le hfit

end HybridSearchService

open HybridSearchService in
/-- **C4** (Context Optimizer, `HybridSearchService.optimize_context`): for
every ordered result list and every `max_tokens` (`None` defaulting to
`MAX_CONTEXT_TOKENS = 20000`), assuming each result's token count `tc r` equals
the tokenizer length of its content, the output is the greedy prefix of the
input: every included result keeps the running total within the budget, the
first excluded result would exceed it, the returned total is the sum of the
included token counts and is at most the budget, and input order is preserved
(the output is literally `l.take n`). -/
theorem optimize_context_greedy (enc : String → ℕ) (tc : VectorSearchResult → ℕ)
    (l : List VectorSearchResult) (max_tokens : Option ℕ)
    (htc : ∀ r ∈ l, tc r = enc r.content) :
    MAX_CONTEXT_TOKENS = 20000 ∧
    ∃ n, ∃ hn : n ≤ l.length,
      (optimize_context enc l max_tokens).1 = l.take n ∧
      (optimize_context enc l max_tokens).2 = ((l.take n).map tc).sum ∧
      ((l.take n).map tc).sum ≤ max_tokens.getD MAX_CONTEXT_TOKENS ∧
      (∀ i (hi : i < n), ((l.take i).map tc).sum +
          tc (l.get ⟨i, hi.trans_le hn⟩) ≤ max_tokens.getD MAX_CONTEXT_TOKENS) ∧
      (∀ hl : n < l.length, ((l.take n).map tc).sum +
          tc (l.get ⟨n, hl⟩) > max_tokens.getD MAX_CONTEXT_TOKENS) := by
  refine ⟨rfl, ?_⟩
  obtain ⟨n, hn, heq, hbound, hinc, hstop⟩ :=
    optLoop_spec enc (max_tokens.getD MAX_CONTEXT_TOKENS) l 0 (Nat.zero_le _)
  have hmapeq : ∀ m, ((l.take m).map tc) = ((l.take m).map (fun r => enc r.content)) := by
    intro m
    exact List.map_congr_left (fun r hr => htc r ((List.take_sublist m l).subset hr))
  have hget : ∀ (i : ℕ) (hi : i < l.length), tc (l.get ⟨i, hi⟩) = enc (l.get ⟨i, hi⟩).content :=
    fun i hi => htc _ (l.get_mem i hi)
  refine ⟨n, hn, ?_, ?_, ?_, ?_, ?_⟩
  · rw [show (optimize_context enc l max_tokens).1 = (optLoop enc _ l 0).1 from rfl, heq]
  · rw [show (optimize_context enc l max_tokens).2 = (optLoop enc _ l 0).2 from rfl, heq,
      hmapeq]
    simp
  · rw [hmapeq]; simpa using hbound
  · intro i hi
    rw [hmapeq, hget]
    simpa using hinc i hi
  · intro hl
    rw [hmapeq, hget]
    simpa using hstop hl

/-- A tiny concrete chunk used by witnesses. -/
def sampleChunkA : VectorSearchResult :=
  { chunk_id := 1, document_id := 1, content := "abc", similarity := 1, chunk_type := "text" }

/-- A second tiny concrete chunk used by witnesses. -/
def sampleChunkB : VectorSearchResult :=
  { chunk_id := 2, document_id := 1, content := "abcd", similarity := 1, chunk_type := "text" }

/-- Witness for C4: with 3- and 4-character contents, a character-count
tokenizer and a budget of 5 tokens, the optimizer's returned total respects
the budget. -/
theorem optimize_context_greedy_witness :
    (HybridSearchService.optimize_context (fun s => s.length)
      [sampleChunkA, sampleChunkB] (some 5)).2 ≤ 5 := by
  obtain ⟨-, n, hn, -, h2, h3, -, -⟩ :=
    optimize_context_greedy (fun s => s.length) (fun r => r.content.length)
      [sampleChunkA, sampleChunkB] (some 5) (fun r _ => rfl)
  rw [h2]
  exact h3

namespace HybridSearchService

/-- The `chunk_cache` built in `hybrid_search` step 4 maps each `chunk_id` to
the **first** record with that id in `vector_results + keyword_results`
(`if result.chunk_id not in chunk_cache`).  Functionally: first-match lookup. -/
def cacheLookup : List VectorSearchResult → ℤ → Option VectorSearchResult
  | [], _ => none
  | r :: rest, cid => if r.chunk_id = cid then some r else cacheLookup rest cid

/-- `hybrid_search` steps 3–4: RRF-fuse, keep the top `limit` fused ids, and
for each reuse the cached record with its `similarity` overwritten by the RRF
score (no storage re-query: records come only from the two input lists). -/
def hybridMergedResults (vres kres : List VectorSearchResult) (limit : ℕ) :
    List VectorSearchResult :=
  ((reciprocal_rank_fusion vres kres none).take limit).filterMap
    (fun p => (cacheLookup (vres ++ kres) p.1).map
      (fun r => { r with similarity := p.2 }))

/-- `HybridSearchService.hybrid_search`, from the point where both retrieval
lists are available (retrieval itself is I/O): early `([], 0)` when both lists
are empty, otherwise fuse, merge and optimize. -/
def hybrid_search (enc : String → ℕ) (vres kres : List VectorSearchResult)
    (limit : ℕ) (max_tokens : Option ℕ) : List VectorSearchResult × ℕ :=
  if vres.isEmpty ∧ kres.isEmpty then ([], 0)
  else optimize_context enc (hybridMergedResults vres kres limit) max_tokens

theorem cacheLookup_spec :
    ∀ {l : List VectorSearchResult} {cid : ℤ} {r : VectorSearchResult},
      cacheLookup l cid = some r → r.chunk_id = cid ∧ r ∈ l := by
  intro l
  induction l with
  | nil => intro cid r h; simp [cacheLookup] at h
  | cons a rest ih =>
      intro cid r h
      by_cases hid : a.chunk_id = cid
      · rw [cacheLookup, if_pos hid] at h
        obtain rfl := Option.some_injective _ h
        exact ⟨hid, List.mem_cons_self a rest⟩
      · rw [cacheLookup, if_neg hid] at h
        obtain ⟨h1, h2⟩ := ih h
        exact ⟨h1, List.mem_cons_of_mem a h2⟩

theorem pairwise_filterMap_of {α β : Type*} (f : α → Option β) {R : α → α → Prop}
    {S : β → β → Prop} (hf : ∀ a b x y, R a b → f a = some x → f b = some y → S x y) :
    ∀ {l : List α}, l.Pairwise R → (l.filterMap f).Pairwise S := by
  intro l
  induction l with
  | nil => intro _; simp
  | cons a rest ih =>
      intro hp
      rw [List.pairwise_cons] at hp
      rw [List.filterMap_cons]
      cases hfa : f a with
      | none => exact ih hp.2
      | some x =>
          rw [List.pairwise_cons]
          refine ⟨?_, ih hp.2⟩
          intro y hy
          obtain ⟨b, hb, hfb⟩ := List.mem_filterMap.mp hy
          exact hf a b x y (hp.1 b hb) hfa hfb

theorem map_filterMap_sublist {α β γ : Type*} (f : α → Option β) (g : β → γ) (h : α → γ)
    (hfg : ∀ a b, f a = some b → g b = h a) :
    ∀ (l : List α), ((l.filterMap f).map g).Sublist (l.map h) := by
  intro l
  induction l with
  | nil => simp
  | cons a rest ih =>
      rw [List.filterMap_cons, List.map_cons]
      cases hfa : f a with
      | none => exact ih.cons (h a)
      | some b => rw [List.map_cons, hfg a b hfa]; exact ih.cons₂ (h a)

end HybridSearchService

open HybridSearchService in
/-- **C5** (HybridSearch output invariant, `HybridSearchService.hybrid_search`):
for every pair of retrieval lists, the returned records are in non-increasing
order of the `similarity` field (which then carries the RRF score), no two
share a `chunk_id`, and each record is one of the cached input records (from
either list, first occurrence of its id) with only `similarity` overwritten by
its RRF fusion score — storage is never re-queried. -/
theorem hybrid_search_invariant (enc : String → ℕ) (vres kres : List VectorSearchResult)
    (limit : ℕ) (max_tokens : Option ℕ) :
    (hybrid_search enc vres kres limit max_tokens).1.Pairwise
        (fun a b => b.similarity ≤ a.similarity) ∧
    ((hybrid_search enc vres kres limit max_tokens).1.map (fun r => r.chunk_id)).Nodup ∧
    (∀ r ∈ (hybrid_search enc vres kres limit max_tokens).1, ∃ r0,
        r0 ∈ vres ++ kres ∧ r0.chunk_id = r.chunk_id ∧
        r = { r0 with similarity :=
                rrfContrib 60 r.chunk_id vres 0 + rrfContrib 60 r.chunk_id kres 0 }) := by
  by_cases hempty : vres.isEmpty ∧ kres.isEmpty
  · simp [hybrid_search, hempty]
  · have hout : (hybrid_search enc vres kres limit max_tokens).1 =
        (optimize_context enc (hybridMergedResults vres kres limit) max_tokens).1 := by
      unfold hybrid_search
      rw [if_neg hempty]
    obtain ⟨n, hn, heq, -, -, -⟩ :=
      optLoop_spec enc (max_tokens.getD MAX_CONTEXT_TOKENS)
        (hybridMergedResults vres kres limit) 0 (Nat.zero_le _)
    have htake : (optimize_context enc (hybridMergedResults vres kres limit) max_tokens).1 =
        (hybridMergedResults vres kres limit).take n := by
      rw [show (optimize_context enc (hybridMergedResults vres kres limit) max_tokens).1 =
        (optLoop enc _ (hybridMergedResults vres kres limit) 0).1 from rfl, heq]
    have hsub : ((hybrid_search enc vres kres limit max_tokens).1).Sublist
        (hybridMergedResults vres kres limit) := by
      rw [hout, htake]; exact List.take_sublist n _
    refine ⟨?_, ?_, ?_⟩
    · have hpw : (hybridMergedResults vres kres limit).Pairwise
          (fun a b => b.similarity ≤ a.similarity) := by
        unfold hybridMergedResults
        refine pairwise_filterMap_of _ ?_
          (((rrf_pairwise vres kres).sublist (List.take_sublist limit _)))
        intro a b x y hab hx hy
        obtain ⟨ra, hra, hxa⟩ := Option.map_eq_some'.mp hx
        obtain ⟨rb, hrb, hyb⟩ := Option.map_eq_some'.mp hy
        rw [← hxa, ← hyb]
        exact hab
      exact hpw.sublist hsub
    · have h1 : (((hybridMergedResults vres kres limit)).map (fun r => r.chunk_id)).Sublist
          (((reciprocal_rank_fusion vres kres none).take limit).map Prod.fst) := by
        unfold hybridMergedResults
        refine map_filterMap_sublist _ _ _ ?_ _
        intro p r hpr
        obtain ⟨r0, hr0, hrr⟩ := Option.map_eq_some'.mp hpr
        rw [← hrr]
        exact (cacheLookup_spec hr0).1
      have h2 : (((reciprocal_rank_fusion vres kres none).take limit).map Prod.fst).Nodup :=
        (rrf_fst_nodup vres kres).sublist ((List.take_sublist limit _).map Prod.fst)
      exact ((hsub.map (fun r => r.chunk_id)).trans h1).nodup h2
    · intro r hr
      have hr' : r ∈ hybridMergedResults vres kres limit := hsub.subset hr
      obtain ⟨p, hp, hpr⟩ := List.mem_filterMap.mp hr'
      obtain ⟨r0, hr0, hrr⟩ := Option.map_eq_some'.mp hpr
      obtain ⟨hid, hmem⟩ := cacheLookup_spec hr0
      have hfused : p ∈ reciprocal_rank_fusion vres kres none :=
        (List.take_sublist limit _).subset hp
      have hscore := rrf_score_of_mem vres kres hfused
      have hrid : r.chunk_id = p.1 := by rw [← hrr]; exact hid
      refine ⟨r0, hmem, by rw [hid, hrid], ?_⟩
      rw [hrid, ← hscore, ← hrr]

namespace ChunkExpansionService

/-- `chunk_expansion_service.py` — `MAX_CONTEXT_TOKENS = 15000`. -/
def MAX_CONTEXT_TOKENS : ℕ := 15000

/-- Hangul syllable range `[가-힣]` of the section-title pattern. -/
def isHangulSyllable (c : Char) : Bool :=
  decide ('가' ≤ c ∧ c ≤ '힣')

/-- `re.match(r"^제\d+조|장|절", first_line)`: `제`, one or more digits, then
the given suffix character. -/
def startsClausePattern (suffix : Char) (cs : List Char) : Bool :=
  match cs with
  | c0 :: rest =>
      c0 = '제' && ¬(rest.takeWhile Char.isDigit).isEmpty &&
        (match rest.dropWhile Char.isDigit with
         | c :: _ => c = suffix
         | [] => false)
  | [] => false

/-- `re.match(r"^\d+\.\s*[가-힣]+", first_line)`: digits, a dot, optional
whitespace, then a Hangul syllable. -/
def startsNumberedTitle (cs : List Char) : Bool :=
  ¬(cs.takeWhile Char.isDigit).isEmpty &&
    (match cs.dropWhile Char.isDigit with
     | '.' :: r2 =>
        (match r2.dropWhile Char.isWhitespace with
         | c :: _ => isHangulSyllable c
         | [] => false)
     | _ => false)

/-- `ChunkExpansionService._check_new_section_start`.  The empty/whitespace
guard, the table (`|`) special case against the primary chunk's content, and
the three header patterns.  (Python `str.strip` and `\s` also cover a few
exotic Unicode spaces; `Char.isWhitespace` covers the ASCII ones actually
produced by the chunker.) -/
def check_new_section_start (content primary_content : String) : Bool :=
  if content.trim.isEmpty then false
  else
    let first_line :=
      match content.trim.splitOn "\n" with
      | [] => ""
      | l :: _ => l.trim
    match first_line.data with
    | '|' :: _ => ¬ pyIn "|" primary_content
    | cs =>
        startsClausePattern '조' cs || startsClausePattern '장' cs ||
          startsClausePattern '절' cs || startsNumberedTitle cs

/-- The mutable loop state of `merge_chunks`: `included_chunks`,
`merged_parts`, `total_tokens`, `truncated`. -/
structure MergeState where
  included : List ℤ
  parts : List String
  total : ℕ
  truncated : Bool
  deriving Repr, DecidableEq

/-- The return value of `merge_chunks`. -/
structure MergeResult where
  merged_content : String
  included_chunks : List ℤ
  total_tokens : ℕ
  truncated : Bool
  deriving Repr, DecidableEq

/-- The alternating `while (prev_idx >= 0 or next_idx < len) and not truncated`
loop of `merge_chunks`.  `prevRem` is the not-yet-taken previous chunks
nearest-first (the loop walks `prev_idx` downwards), `nrem` the remaining next
chunks.  Each iteration first tries the next chunk (section-boundary check,
then token check, append at the back), then the previous chunk (token check,
prepend at the front); any failed token check or detected section start
`break`s out of the whole loop. -/
def mergeLoop (enc : String → ℕ) (check : String → Bool) (mt : ℕ) :
    List VectorSearchResult → List VectorSearchResult → MergeState → MergeState
  | [], [], st => st
  | p :: prest, [], st =>
      if st.total + enc p.content ≤ mt then
        mergeLoop enc check mt prest []
          { st with included := p.chunk_id :: st.included,
                    parts := p.content :: st.parts,
                    total := st.total + enc p.content }
      else { st with truncated := true }
  | prevRem, c :: nrest, st =>
      if check c.content then st
      else if st.total + enc c.content ≤ mt then
        match prevRem with
        | [] =>
            mergeLoop enc check mt [] nrest
              { st with included := st.included ++ [c.chunk_id],
                        parts := st.parts ++ [c.content],
                        total := st.total + enc c.content }
        | p :: prest =>
            if st.total + enc c.content + enc p.content ≤ mt then
              mergeLoop enc check mt prest nrest
                { st with included := p.chunk_id :: (st.included ++ [c.chunk_id]),
                          parts := p.content :: (st.parts ++ [c.content]),
                          total := st.total + enc c.content + enc p.content }
            else
              { st with included := st.included ++ [c.chunk_id],
                        parts := st.parts ++ [c.content],
                        total := st.total + enc c.content,
                        truncated := true }
      else { st with truncated := true }
  termination_by pr nr _ => pr.length + nr.length

/-- `ChunkExpansionService.merge_chunks`.  The primary chunk is always
included first; when it alone exceeds the budget the loop is skipped with
`truncated = True`.  The final content is `"\n\n".join(merged_parts)`. -/
def merge_chunks (enc : String → ℕ) (primary_chunk : VectorSearchResult)
    (prev_chunks next_chunks : List VectorSearchResult)
    (max_tokens : Option ℕ) : MergeResult :=
  let mt := max_tokens.getD MAX_CONTEXT_TOKENS
  let st0 : MergeState :=
    { included := [primary_chunk.chunk_id], parts := [primary_chunk.content],
      total := enc primary_chunk.content,
      truncated := decide (mt < enc primary_chunk.content) }
  let stF :=
    if mt < enc primary_chunk.content then st0
    else
      mergeLoop enc (fun s => check_new_section_start s primary_chunk.content) mt
        prev_chunks.reverse next_chunks st0
  { merged_content := String.intercalate "\n\n" stF.parts,
    included_chunks := stF.included,
    total_tokens := stF.total,
    truncated := stF.truncated }

theorem mergeLoop_shape (enc : String → ℕ) (check : String → Bool) (mt : ℕ) :
    ∀ (pr nr : List VectorSearchResult) (st : MergeState),
      ∃ p' n', p' <+: pr ∧ n' <+: nr ∧
        (mergeLoop enc check mt pr nr st).included =
          (p'.map (fun c => c.chunk_id)).reverse ++ st.included ++
            n'.map (fun c => c.chunk_id) ∧
        (mergeLoop enc check mt pr nr st).parts =
          (p'.map (fun c => c.content)).reverse ++ st.parts ++
            n'.map (fun c => c.content) := by
  intro pr nr st
  induction pr, nr, st using mergeLoop.induct enc check mt with
  | case1 st =>
      exact ⟨[], [], List.nil_prefix, List.nil_prefix, by simp [mergeLoop], by simp [mergeLoop]⟩
  | case2 p prest st hfit ih =>
      obtain ⟨p'', n'', hp, hn, hinc, hparts⟩ := ih
      have hn0 : n'' = [] := List.prefix_nil.mp hn
      subst hn0
      refine ⟨p :: p'', [], List.cons_prefix_cons.mpr ⟨rfl, hp⟩, List.nil_prefix, ?_, ?_⟩
      · rw [mergeLoop, if_pos hfit]
        simp only at hinc
        rw [hinc]
        simp
      · rw [mergeLoop, if_pos hfit]
        simp only at hparts
        rw [hparts]
        simp
  | case3 p prest st hfit =>
      refine ⟨[], [], List.nil_prefix, List.nil_prefix, ?_, ?_⟩ <;>
        (rw [mergeLoop, if_neg hfit]; simp)
  | case4 prevRem c nrest st hcheck =>
      refine ⟨[], [], List.nil_prefix, List.nil_prefix, ?_, ?_⟩ <;>
        (cases prevRem <;> (rw [mergeLoop, if_pos hcheck]; simp))
  | case5 c nrest st hcheck hfit ih =>
      obtain ⟨p'', n'', hp, hn, hinc, hparts⟩ := ih
      have hp0 : p'' = [] := List.prefix_nil.mp hp
      subst hp0
      refine ⟨[], c :: n'', List.nil_prefix, List.cons_prefix_cons.mpr ⟨rfl, hn⟩, ?_, ?_⟩
      · rw [mergeLoop, if_neg hcheck, if_pos hfit]
        simp only at hinc
        rw [hinc]
        simp
      · rw [mergeLoop, if_neg hcheck, if_pos hfit]
        simp only at hparts
        rw [hparts]
        simp
  | case6 c nrest st hcheck hfit p prest hfit2 ih =>
      obtain ⟨p'', n'', hp, hn, hinc, hparts⟩ := ih
      refine ⟨p :: p'', c :: n'', List.cons_prefix_cons.mpr ⟨rfl, hp⟩,
        List.cons_prefix_cons.mpr ⟨rfl, hn⟩, ?_, ?_⟩
      · rw [mergeLoop, if_neg hcheck, if_pos hfit, if_pos hfit2]
        rw [hinc]
        simp
      · rw [mergeLoop, if_neg hcheck, if_pos hfit, if_pos hfit2]
        rw [hparts]
        simp
  | case7 c nrest st hcheck hfit p prest hfit2 =>
      refine ⟨[], [c], List.nil_prefix, List.cons_prefix_cons.mpr ⟨rfl, List.nil_prefix⟩, ?_, ?_⟩
      · rw [mergeLoop, if_neg hcheck, if_pos hfit, if_neg hfit2]
        simp
      · rw [mergeLoop, if_neg hcheck, if_pos hfit, if_neg hfit2]
        simp
  | case8 prevRem c nrest st hcheck hfit =>
      refine ⟨[], [], List.nil_prefix, List.nil_prefix, ?_, ?_⟩ <;>
        (cases prevRem <;> (rw [mergeLoop, if_neg hcheck, if_neg hfit]; simp))

end ChunkExpansionService

open ChunkExpansionService in
/-- **C3** (chunk-merge shape, `ChunkExpansionService.merge_chunks` fed by
`get_adjacent_chunks`): assuming the chunk-store invariant — the previous
chunks, the pivot and the next chunks carry consecutive `chunk_index` values
(dense, totally ordered within the document, as delivered by the
`chunk_index <` / `>` SQL queries) — the merge output selects a suffix of the
previous chunks and a prefix of the next chunks around the pivot, so
`included_chunks` is a contiguous `chunk_index` range containing the pivot,
listed in ascending `chunk_index` order, and `merged_content` is exactly the
concatenation of those chunks' contents in that order, separated by blank
lines (`"\n\n".join`). -/
theorem merge_chunks_shape (enc : String → ℕ) (chunkIndex : ℤ → ℤ)
    (primary : VectorSearchResult) (prev next : List VectorSearchResult)
    (max_tokens : Option ℕ)
    (hchain : ((prev ++ primary :: next).map (fun c => chunkIndex c.chunk_id)).Chain'
        (fun a b => b = a + 1)) :
    ∃ ps ns, ps <:+ prev ∧ ns <+: next ∧
      (merge_chunks enc primary prev next max_tokens).included_chunks =
        (ps ++ primary :: ns).map (fun c => c.chunk_id) ∧
      (merge_chunks enc primary prev next max_tokens).merged_content =
        String.intercalate "\n\n" ((ps ++ primary :: ns).map (fun c => c.content)) ∧
      primary.chunk_id ∈ (merge_chunks enc primary prev next max_tokens).included_chunks ∧
      ((ps ++ primary :: ns).map (fun c => chunkIndex c.chunk_id)).Chain'
        (fun a b => b = a + 1) ∧
      ((ps ++ primary :: ns).map (fun c => chunkIndex c.chunk_id)).Pairwise (· < ·) := by
  have main : ∃ ps ns, ps <:+ prev ∧ ns <+: next ∧
      (merge_chunks enc primary prev next max_tokens).included_chunks =
        (ps ++ primary :: ns).map (fun c => c.chunk_id) ∧
      (merge_chunks enc primary prev next max_tokens).merged_content =
        String.intercalate "\n\n" ((ps ++ primary :: ns).map (fun c => c.content)) := by
    by_cases hov : max_tokens.getD MAX_CONTEXT_TOKENS < enc primary.content
    · refine ⟨[], [], List.nil_suffix, List.nil_prefix, ?_, ?_⟩ <;>
        simp [merge_chunks, hov]
    · obtain ⟨p', n', hp, hn, hinc, hparts⟩ :=
        mergeLoop_shape enc (fun s => check_new_section_start s primary.content)
          (max_tokens.getD MAX_CONTEXT_TOKENS) prev.reverse next
          { included := [primary.chunk_id], parts := [primary.content],
            total := enc primary.content,
            truncated := decide (max_tokens.getD MAX_CONTEXT_TOKENS < enc primary.content) }
      have hsuf : p'.reverse <:+ prev := by
        rw [← List.reverse_prefix, List.reverse_reverse]
        exact hp
      refine ⟨p'.reverse, n', hsuf, hn, ?_, ?_⟩
      · simp only [merge_chunks]
        rw [if_neg hov]
        simp only at hinc
        rw [hinc]
        simp [List.map_reverse]
      · simp only [merge_chunks]
        rw [if_neg hov]
        simp only at hparts
        rw [hparts]
        simp [List.map_reverse]
  obtain ⟨ps, ns, hsuf, hpre, hinc, hcontent⟩ := main
  have hinf : (ps ++ primary :: ns) <:+: (prev ++ primary :: next) := by
    obtain ⟨s, hs⟩ := hsuf
    obtain ⟨t, ht⟩ := hpre
    exact ⟨s, t, by rw [← hs, ← ht]; simp⟩
  have hchainSel : ((ps ++ primary :: ns).map (fun c => chunkIndex c.chunk_id)).Chain'
      (fun a b => b = a + 1) :=
    List.Chain'.infix hchain (List.IsInfix.map _ hinf)
  refine ⟨ps, ns, hsuf, hpre, hinc, hcontent, ?_, hchainSel, ?_⟩
  · rw [hinc]
    exact List.mem_map_of_mem _ (by simp)
  · have hlt : ((ps ++ primary :: ns).map (fun c => chunkIndex c.chunk_id)).Chain' (· < ·) :=
      hchainSel.imp (by intro a b h; omega)
    exact (List.chain'_iff_pairwise).mp hlt

/-- A third tiny concrete chunk used by witnesses. -/
def sampleChunkC : VectorSearchResult :=
  { chunk_id := 3, document_id := 1, content := "abcde", similarity := 1, chunk_type := "text" }

/-- Witness for C3: chunks 1, 2 (pivot), 3 with consecutive indices; the merge
keeps the pivot id among `included_chunks`. -/
theorem merge_chunks_shape_witness :
    ((([sampleChunkA] ++ sampleChunkB :: [sampleChunkC]).map
        (fun c => (fun i => i) c.chunk_id)).Chain' (fun a b => b = a + 1)) ∧
    sampleChunkB.chunk_id ∈
      (ChunkExpansionService.merge_chunks (fun s => s.length) sampleChunkB
        [sampleChunkA] [sampleChunkC] none).included_chunks := by
  obtain ⟨ps, ns, -, -, -, -, hmem, -, -⟩ :=
    merge_chunks_shape (fun s => s.length) (fun i => i) sampleChunkB
      [sampleChunkA] [sampleChunkC] none
      (by simp [sampleChunkA, sampleChunkB, sampleChunkC])
  exact ⟨by simp [sampleChunkA, sampleChunkB, sampleChunkC], hmem⟩

/-- `models/answer_validation.py` — one validation axis
(`ValidationDetail{check_name, passed, score, details}`). -/
structure ValidationDetail where
  check_name : String
  passed : Bool
  score : ℚ
  details : String
  deriving Repr, DecidableEq

namespace AnswerValidator

/-- `AnswerValidator.WEIGHTS` — the four axis weights, in source order. -/
def WEIGHTS : List (String × ℚ) :=
  [("hallucination", 0.4), ("context", 0.3), ("clause", 0.2), ("format", 0.1)]

/-- `self.WEIGHTS[name]` lookup. -/
def weight (name : String) : ℚ :=
  (WEIGHTS.lookup name).getD 0

/-- `AnswerValidator.__init__` — `self.threshold = 0.7`. -/
def threshold : ℚ := 0.7

/-- `AnswerValidator._calculate_confidence`: the weighted sum of the four axis
scores, clamped into `[0, 1]` by `max(0.0, min(1.0, confidence))`. -/
def calculate_confidence (hallucination_check clause_check context_check
    format_check : ValidationDetail) : ℚ :=
  max 0 (min 1
    (hallucination_check.score * weight "hallucination" +
     context_check.score * weight "context" +
     clause_check.score * weight "clause" +
     format_check.score * weight "format"))

/-- `validate` — `is_reliable = confidence_score >= self.threshold`. -/
def is_reliable (confidence_score : ℚ) : Bool :=
  decide (confidence_score ≥ threshold)

end AnswerValidator

open AnswerValidator in
/-- **C6** (validator confidence, `AnswerValidator._calculate_confidence` and
`validate`): the four weights are 0.40/0.30/0.20/0.10 and sum to 1;
`confidence_score` is the weighted sum clamped to `[0, 1]` (and equals the
plain weighted sum whenever the four axis scores already lie in `[0, 1]`);
`is_reliable` holds iff `confidence_score ≥ 0.7`. -/
theorem validator_confidence_correct (h cl c f : ValidationDetail) :
    ((WEIGHTS.map Prod.snd).sum = 1 ∧
      weight "hallucination" = 0.4 ∧ weight "context" = 0.3 ∧
      weight "clause" = 0.2 ∧ weight "format" = 0.1) ∧
    calculate_confidence h cl c f =
      max 0 (min 1 (0.4 * h.score + 0.3 * c.score + 0.2 * cl.score + 0.1 * f.score)) ∧
    (0 ≤ calculate_confidence h cl c f ∧ calculate_confidence h cl c f ≤ 1) ∧
    (is_reliable (calculate_confidence h cl c f) = true ↔
      calculate_confidence h cl c f ≥ 0.7) ∧
    ((0 ≤ h.score ∧ h.score ≤ 1) → (0 ≤ cl.score ∧ cl.score ≤ 1) →
      (0 ≤ c.score ∧ c.score ≤ 1) → (0 ≤ f.score ∧ f.score ≤ 1) →
      calculate_confidence h cl c f =
        0.4 * h.score + 0.3 * c.score + 0.2 * cl.score + 0.1 * f.score) := by
  have wh : weight "hallucination" = (0.4 : ℚ) := by rfl
  have wc : weight "context" = (0.3 : ℚ) := by rfl
  have wcl : weight "clause" = (0.2 : ℚ) := by rfl
  have wf : weight "format" = (0.1 : ℚ) := by rfl
  refine ⟨⟨by norm_num [WEIGHTS], wh, wc, wcl, wf⟩, ?_, ?_, ?_, ?_⟩
  · unfold calculate_confidence
    rw [wh, wc, wcl, wf]
    ring_nf
  · constructor
    · exact le_max_left 0 _
    · unfold calculate_confidence
      exact max_le (by norm_num) (min_le_left 1 _)
  · unfold is_reliable
    exact decide_eq_true_iff
  · intro hh hcl hc hf
    unfold calculate_confidence
    rw [wh, wc, wcl, wf]
    have h1 : h.score * (0.4 : ℚ) + c.score * 0.3 + cl.score * 0.2 + f.score * 0.1 ≤ 1 := by
      linarith [hh.1, hh.2, hcl.1, hcl.2, hc.1, hc.2, hf.1, hf.2]
    have h0 : (0 : ℚ) ≤ h.score * 0.4 + c.score * 0.3 + cl.score * 0.2 + f.score * 0.1 := by
      linarith [hh.1, hh.2, hcl.1, hcl.2, hc.1, hc.2, hf.1, hf.2]
    rw [min_eq_right h1, max_eq_right h0]
    ring

/-- Witness for C6: four perfect axis scores give confidence 1, which is
reliable. -/
theorem validator_confidence_correct_witness :
    AnswerValidator.is_reliable
      (AnswerValidator.calculate_confidence ⟨"할루시네이션 검증", true, 1, ""⟩
        ⟨"조항 존재 확인", true, 1, ""⟩ ⟨"컨텍스트 일치", true, 1, ""⟩
        ⟨"형식 검증", true, 1, ""⟩) = true := by
  obtain ⟨-, -, -, hrel, hval⟩ :=
    validator_confidence_correct ⟨"할루시네이션 검증", true, 1, ""⟩
      ⟨"조항 존재 확인", true, 1, ""⟩ ⟨"컨텍스트 일치", true, 1, ""⟩
      ⟨"형식 검증", true, 1, ""⟩
  rw [hrel, hval (by norm_num) (by norm_num) (by norm_num) (by norm_num)]
  norm_num

namespace AnswerValidator

/-- One attempt of the pattern `제\s*(\d+)\s*조` just after a `제`: optional
whitespace, one or more digits (captured), optional whitespace, `조`. -/
def clauseMatchAt (cs : List Char) : Option String :=
  let r1 := cs.dropWhile Char.isWhitespace
  let ds := r1.takeWhile Char.isDigit
  if ds.isEmpty then none
  else
    match (r1.dropWhile Char.isDigit).dropWhile Char.isWhitespace with
    | '조' :: _ => some (String.mk ds)
    | _ => none

/-- `re.findall(r"제\s*(\d+)\s*조", answer)`.  The regex engine scans left to
right; a match can only start at a `제`, and no `제` occurs strictly inside a
match span (which is whitespace, digits and `조`), so continuing the scan one
character after each `제` finds exactly the non-overlapping matches. -/
def clauseScan : List Char → List String
  | [] => []
  | c :: rest =>
      match (if c = '제' then clauseMatchAt rest else none) with
      | some ds => ("제" ++ ds ++ "조") :: clauseScan rest
      | none => clauseScan rest

/-- `AnswerValidator._extract_clause_numbers`: all `제N조` matches, normalised
to `제{digits}조` and de-duplicated (`list(set(...))`; Python's set order is
unspecified and only membership and cardinality are used downstream). -/
def extract_clause_numbers (answer : String) : List String :=
  (clauseScan answer.data).dedup

/-- One row of `document_chunks` joined with its document's `status`. -/
structure ChunkRow where
  clause_number : Option String
  doc_status : String
  deriving Repr, DecidableEq

/-- `AnswerValidator._check_clause_existence` with the chunk store modelled as
its list of rows and `sessionAvailable = false` for `session is None`.  The SQL
`SELECT DISTINCT clause_number FROM document_chunks WHERE clause_number = ANY(:clauses)`
ranges over **all** chunk rows — it carries no document-status filter.  The
human-readable `details` strings are elided. -/
def check_clause_existence (store : List ChunkRow) (sessionAvailable : Bool)
    (answer : String) : ValidationDetail :=
  let clause_numbers := extract_clause_numbers answer
  if clause_numbers.isEmpty then
    { check_name := "조항 존재 확인", passed := true, score := 1,
      details := "조항 번호 없음 (N/A)" }
  else if sessionAvailable = false then
    { check_name := "조항 존재 확인", passed := true, score := 0.5,
      details := "DB 세션 없음 (검증 불가)" }
  else
    let existing := ((store.filterMap (fun row => row.clause_number)).filter
      (fun cnum => clause_numbers.contains cnum)).dedup
    let score : ℚ := (existing.length : ℚ) / (clause_numbers.length : ℚ)
    { check_name := "조항 존재 확인", passed := decide (score ≥ 0.8), score := score,
      details := "" }

/-- The score prescribed by the claim: the fraction of mentioned clause
numbers that exist in chunks of **active** documents (the spec's ChunkStore
`clause_numbers_exist` filters `status='active'`). -/
def activeClauseScore (store : List ChunkRow) (answer : String) : ℚ :=
  let clause_numbers := extract_clause_numbers answer
  ((clause_numbers.filter (fun cnum =>
      (store.filter (fun row => row.doc_status = "active")).any
        (fun row => row.clause_number = some cnum))).length : ℚ) /
    (clause_numbers.length : ℚ)

end AnswerValidator

open AnswerValidator in
/-- **C7 counterexample**: a store whose only chunk carries `제1조` but belongs
to an `archived` (non-active) document.  The code scores the axis `1.0`
(its query ignores document status), while the claim's active-documents
reading scores `0.0`. -/
theorem clause_existence_active_counterexample :
    (check_clause_existence [⟨some "제1조", "archived"⟩] true "제1조에 따라 보장됩니다").score = 1 ∧
    activeClauseScore [⟨some "제1조", "archived"⟩] "제1조에 따라 보장됩니다" = 0 ∧
    (1 : ℚ) ≠ 0 := by
  have hext : extract_clause_numbers "제1조에 따라 보장됩니다" = ["제1조"] := by rfl
  refine ⟨?_, ?_, by norm_num⟩
  · simp only [check_clause_existence, hext]
    norm_num
    decide
  · simp only [activeClauseScore, hext]
    norm_num
    decide

theorem filter_dedup_count (A cn : List String) (hnd : cn.Nodup) :
    ((A.filter (fun c => cn.contains c)).dedup).length =
      (cn.filter (fun c => A.contains c)).length := by
  have h1 : ((A.filter (fun c => cn.contains c)).dedup).length =
      (A.filter (fun c => cn.contains c)).toFinset.card :=
    (List.card_toFinset _).symm
  have h2 : (cn.filter (fun c => A.contains c)).length =
      (cn.filter (fun c => A.contains c)).toFinset.card :=
    (List.toFinset_card_of_nodup (hnd.filter _)).symm
  rw [h1, h2, List.toFinset_filter, List.toFinset_filter]
  congr 1
  ext x
  simp only [Finset.mem_filter, List.mem_toFinset]
  constructor
  · rintro ⟨hA, hcn⟩
    exact ⟨by simpa using hcn, by simpa using hA⟩
  · rintro ⟨hcn, hA⟩
    exact ⟨by simpa using hA, by simpa using hcn⟩

open AnswerValidator in
/-- **C7 amended** (clause-existence check,
`AnswerValidator._check_clause_existence`): all `제N조` mentions are extracted
from the answer and de-duplicated; the store is queried for which of those
clause numbers exist **anywhere among the chunk rows, regardless of the
owning document's status** (the SQL carries no `status='active'` filter); the
axis score equals found/mentioned and lies in `[0,1]`, with pass iff
score ≥ 0.8; with no mentions the axis scores 1.0 and passes (N/A); with the
store unavailable it scores 0.5. -/
theorem clause_existence_check_correct (store : List ChunkRow)
    (sessionAvailable : Bool) (answer : String) :
    (extract_clause_numbers answer = [] →
      check_clause_existence store sessionAvailable answer =
        { check_name := "조항 존재 확인", passed := true, score := 1,
          details := "조항 번호 없음 (N/A)" }) ∧
    (extract_clause_numbers answer ≠ [] → sessionAvailable = false →
      (check_clause_existence store sessionAvailable answer).score = 0.5 ∧
      (check_clause_existence store sessionAvailable answer).passed = true) ∧
    (extract_clause_numbers answer ≠ [] → sessionAvailable = true →
      (check_clause_existence store sessionAvailable answer).score =
        (((extract_clause_numbers answer).filter (fun cnum =>
            (store.filterMap (fun row => row.clause_number)).contains cnum)).length : ℚ) /
          ((extract_clause_numbers answer).length : ℚ) ∧
      ((check_clause_existence store sessionAvailable answer).passed = true ↔
        (check_clause_existence store sessionAvailable answer).score ≥ 0.8) ∧
      0 ≤ (check_clause_existence store sessionAvailable answer).score ∧
      (check_clause_existence store sessionAvailable answer).score ≤ 1) := by
  refine ⟨?_, ?_, ?_⟩
  · intro h
    simp [check_clause_existence, h]
  · intro h hs
    subst hs
    have hne : ¬ (extract_clause_numbers answer).isEmpty = true := by
      simpa [List.isEmpty_iff] using h
    unfold check_clause_existence
    rw [if_neg hne, if_pos rfl]
    exact ⟨rfl, rfl⟩
  · intro h hs
    subst hs
    have hne : ¬ (extract_clause_numbers answer).isEmpty = true := by
      simpa [List.isEmpty_iff] using h
    have hbranch : check_clause_existence store true answer =
        { check_name := "조항 존재 확인",
          passed := decide ((((store.filterMap (fun row => row.clause_number)).filter
              (fun cnum => (extract_clause_numbers answer).contains cnum)).dedup.length : ℚ) /
              ((extract_clause_numbers answer).length : ℚ) ≥ 0.8),
          score := (((store.filterMap (fun row => row.clause_number)).filter
              (fun cnum => (extract_clause_numbers answer).contains cnum)).dedup.length : ℚ) /
              ((extract_clause_numbers answer).length : ℚ),
          details := "" } := by
      unfold check_clause_existence
      rw [if_neg hne, if_neg (by simp : ¬ (true = false))]
    have hnd : (extract_clause_numbers answer).Nodup := List.nodup_dedup _
    have hkey := filter_dedup_count (store.filterMap (fun row => row.clause_number))
      (extract_clause_numbers answer) hnd
    have hpos : 0 < ((extract_clause_numbers answer).length : ℚ) := by
      have : 0 < (extract_clause_numbers answer).length :=
        List.length_pos.mpr h
      exact_mod_cast this
    refine ⟨?_, ?_, ?_, ?_⟩
    · rw [hbranch]
      simp only
      rw [hkey]
    · rw [hbranch]
      simp only
      exact decide_eq_true_iff
    · rw [hbranch]
      simp only
      positivity
    · rw [hbranch]
      simp only
      rw [div_le_one hpos]
      have hle : ((store.filterMap (fun row => row.clause_number)).filter
          (fun cnum => (extract_clause_numbers answer).contains cnum)).dedup.length ≤
          (extract_clause_numbers answer).length := by
        rw [hkey]
        exact List.length_filter_le _ _
      exact_mod_cast hle

/-- Witness for C7: an answer with no clause mentions yields the N/A detail. -/
theorem clause_existence_check_correct_witness :
    AnswerValidator.check_clause_existence [] true "보장 내용 안내" =
      { check_name := "조항 존재 확인", passed := true, score := 1,
        details := "조항 번호 없음 (N/A)" } :=
  (clause_existence_check_correct [] true "보장 내용 안내").1 (by rfl)

namespace RouterAgent

/-- `RouterAgent.SEARCH_KEYWORDS`. -/
def SEARCH_KEYWORDS : List String :=
  ["검색", "찾아", "알려줘", "알려주세요", "무엇", "어떻게", "언제",
   "보장", "보험", "약관", "조항", "내용", "설명", "궁금",
   "질문", "문의", "확인", "가입", "해지", "청구"]

/-- `RouterAgent.UPLOAD_KEYWORDS`. -/
def UPLOAD_KEYWORDS : List String :=
  ["업로드", "올려", "등록", "추가", "파일", "PDF", "문서"]

/-- `RouterAgent.MANAGE_KEYWORDS`. -/
def MANAGE_KEYWORDS : List String :=
  ["관리", "목록", "삭제", "다운로드", "조회", "보기"]

/-- `sum(1 for keyword in KEYWORDS if keyword in query_lower)`. -/
def keywordScore (keywords : List String) (query_lower : String) : ℕ :=
  (keywords.filter (fun k => pyIn k query_lower)).length

/-- `RouterAgent.classify_intent`.  `query.lower()` is `pyLower` (the
keyword lists are Korean, which has no case, plus the all-ASCII `"PDF"`).
Python's `max(scores, key=scores.get)` walks the dict in insertion order
(`upload`, `manage`, `search`) and replaces the champion only on a strictly
greater score; an all-zero champion falls back to `"search"`. -/
def classify_intent (query : String) : String :=
  let query_lower := pyLower query
  let upload_score := keywordScore UPLOAD_KEYWORDS query_lower
  let manage_score := keywordScore MANAGE_KEYWORDS query_lower
  let search_score := keywordScore SEARCH_KEYWORDS query_lower
  let best1 := ("upload", upload_score)
  let best2 := if manage_score > best1.2 then ("manage", manage_score) else best1
  let best3 := if search_score > best2.2 then ("search", search_score) else best2
  if best3.2 = 0 then "search" else best3.1

end RouterAgent

open RouterAgent in
/-- **C8 counterexample**: the query `"검색 업로드"` scores 1 for `search`
(`"검색"`) and 1 for `upload` (`"업로드"`) — a tie at the top — yet
`classify_intent` returns `"upload"`, not the `"search"` the claim prescribes
for ties. -/
theorem classify_intent_tie_counterexample :
    keywordScore UPLOAD_KEYWORDS (pyLower "검색 업로드") = 1 ∧
    keywordScore MANAGE_KEYWORDS (pyLower "검색 업로드") = 0 ∧
    keywordScore SEARCH_KEYWORDS (pyLower "검색 업로드") = 1 ∧
    classify_intent "검색 업로드" = "upload" ∧ "upload" ≠ "search" := by
  refine ⟨by decide, by decide, by decide, by decide, by decide⟩

open RouterAgent in
/-- **C8 amended** (router classification, `RouterAgent.classify_intent`): the
returned intent is the one whose fixed keyword list scores the most hits in
the lower-cased query, but a tie at the top is broken by the fixed order
`upload`, `manage`, `search` (Python's `max` keeps the first maximal dict
key), not in favour of `search`; only a winning score of zero (equivalently,
three zero scores) defaults to `search`. -/
theorem classify_intent_correct (query : String) :
    classify_intent query =
      if keywordScore SEARCH_KEYWORDS (pyLower query) >
            keywordScore UPLOAD_KEYWORDS (pyLower query) ∧
          keywordScore SEARCH_KEYWORDS (pyLower query) >
            keywordScore MANAGE_KEYWORDS (pyLower query) then "search"
      else if keywordScore UPLOAD_KEYWORDS (pyLower query) = 0 ∧
          keywordScore MANAGE_KEYWORDS (pyLower query) = 0 ∧
          keywordScore SEARCH_KEYWORDS (pyLower query) = 0 then "search"
      else if keywordScore MANAGE_KEYWORDS (pyLower query) >
          keywordScore UPLOAD_KEYWORDS (pyLower query) then "manage"
      else "upload" := by
  simp only [classify_intent, apply_ite Prod.snd, apply_ite Prod.fst]
  split_ifs <;> first | rfl | omega

/-- Python `d[k] = v` on an insertion-ordered dict: replace the value of an
existing key in place, append a new key at the end. -/
def dictSet {α : Type*} : List (String × α) → String → α → List (String × α)
  | [], k, v => [(k, v)]
  | (k', v') :: rest, k, v =>
      if k' = k then (k', v) :: rest else (k', v') :: dictSet rest k v

/-- Python `d.get(k)`: first-match association lookup. -/
def dictGet {α : Type*} : List (String × α) → String → Option α
  | [], _ => none
  | (k', v') :: rest, k => if k' = k then some v' else dictGet rest k

/-- `agents/state.py` — `merge_dicts(left, right)`:
`result = left.copy() if left else {}; if right: result.update(right)`.
`dict.update` writes every item of `right` into the copy in order. -/
def merge_dicts {α : Type*} (left right : List (String × α)) : List (String × α) :=
  right.foldl (fun acc p => dictSet acc p.1 p.2) left

theorem dictGet_dictSet {α : Type*} (d : List (String × α)) (k : String) (v : α)
    (k' : String) :
    dictGet (dictSet d k v) k' = if k = k' then some v else dictGet d k' := by
  induction d with
  | nil => simp [dictSet, dictGet]
  | cons p rest ih =>
      obtain ⟨a, w⟩ := p
      by_cases hak : a = k
      · subst hak
        by_cases h : a = k' <;> simp [dictSet, dictGet, h]
      · by_cases h : a = k'
        · have hkk : ¬ k = k' := fun hh => hak (h.trans hh.symm)
          have hkk' : ¬ k' = k := fun hh => hkk hh.symm
          simp [dictSet, dictGet, hak, h, hkk, hkk']
        · simp [dictSet, dictGet, hak, h, ih]

theorem dictGet_eq_none_of_not_mem {α : Type*} :
    ∀ {d : List (String × α)} {k : String}, k ∉ d.map Prod.fst → dictGet d k = none := by
  intro d
  induction d with
  | nil => intro k _; rfl
  | cons p rest ih =>
      intro k hk
      obtain ⟨a, w⟩ := p
      rw [List.map_cons, List.mem_cons] at hk
      push_neg at hk
      have ha : ¬ a = k := fun hh => hk.1 hh.symm
      simp only [dictGet, if_neg ha]
      exact ih hk.2

theorem keys_dictSet {α : Type*} (d : List (String × α)) (k : String) (v : α) :
    (dictSet d k v).map Prod.fst =
      if k ∈ d.map Prod.fst then d.map Prod.fst else d.map Prod.fst ++ [k] := by
  induction d with
  | nil => simp [dictSet]
  | cons p rest ih =>
      obtain ⟨a, w⟩ := p
      by_cases hak : a = k
      · simp [dictSet, hak]
      · by_cases hmem : k ∈ rest.map Prod.fst <;>
          simp [dictSet, hak, hmem, ih, Ne.symm hak]

theorem merge_dicts_get {α : Type*} :
    ∀ (right : List (String × α)) (left : List (String × α)) (k : String),
      (right.map Prod.fst).Nodup →
      dictGet (merge_dicts left right) k = (dictGet right k).elim (dictGet left k) some := by
  intro right
  induction right with
  | nil => intro left k _; simp [merge_dicts, dictGet]
  | cons p rest ih =>
      intro left k hnd
      obtain ⟨a, v⟩ := p
      rw [List.map_cons] at hnd
      have hstep : merge_dicts left ((a, v) :: rest) = merge_dicts (dictSet left a v) rest := rfl
      rw [hstep, ih _ k (List.nodup_cons.mp hnd).2]
      by_cases hak : a = k
      · subst hak
        have hnone : dictGet rest a = none :=
          dictGet_eq_none_of_not_mem (List.nodup_cons.mp hnd).1
        rw [hnone]
        simp [dictGet, dictGet_dictSet]
      · cases hval : dictGet rest k with
        | some w => simp [dictGet, hak, hval]
        | none => simp [dictGet, hak, hval, dictGet_dictSet]

theorem mem_keys_merge_dicts {α : Type*} :
    ∀ (right : List (String × α)) (left : List (String × α)) (k : String),
      k ∈ (merge_dicts left right).map Prod.fst ↔
        k ∈ left.map Prod.fst ∨ k ∈ right.map Prod.fst := by
  intro right
  induction right with
  | nil => intro left k; simp [merge_dicts]
  | cons p rest ih =>
      intro left k
      obtain ⟨a, v⟩ := p
      have hstep : merge_dicts left ((a, v) :: rest) = merge_dicts (dictSet left a v) rest := rfl
      rw [hstep, ih, keys_dictSet]
      by_cases hmem : a ∈ left.map Prod.fst
      · simp only [hmem, if_true, List.map_cons, List.mem_cons]
        constructor
        · rintro (h | h)
          · exact Or.inl h
          · exact Or.inr (Or.inr h)
        · rintro (h | h | h)
          · exact Or.inl h
          · exact Or.inl (h ▸ hmem)
          · exact Or.inr h
      · simp only [hmem, if_false, List.mem_append, List.mem_singleton, List.map_cons,
          List.mem_cons]
        tauto

/-- **C9 counterexample**: `merge_dicts` is Python `dict.update` — a key
already present in `task_results` from an earlier agent **is** overwritten by
a later update carrying the same key (exactly what happens to the
`context_judgement` summary on every later judgement pass). -/
theorem merge_dicts_overwrites_counterexample :
    merge_dicts [("context_judgement", (1 : ℕ))] [("context_judgement", 2)] =
      [("context_judgement", 2)] ∧
    dictGet (merge_dicts [("context_judgement", (1 : ℕ))] [("context_judgement", 2)])
      "context_judgement" = some 2 ∧
    dictGet [("context_judgement", (1 : ℕ))] "context_judgement" = some 1 ∧
    some (2 : ℕ) ≠ some 1 :=
  ⟨by decide, by decide, by decide, by decide⟩

/-- **C9 amended** (additive `task_results` merge, `merge_dicts` in
`agents/state.py`): the merge never *drops* a key — the merged dict holds
exactly the keys of both sides — but it is right-biased rather than additive:
for a key present in both dicts the later (right) value replaces the earlier
one, and only keys absent from the update keep their earlier values. -/
theorem merge_dicts_right_biased {α : Type*} (left right : List (String × α))
    (k : String) (hnd : (right.map Prod.fst).Nodup) :
    dictGet (merge_dicts left right) k = (dictGet right k).elim (dictGet left k) some ∧
    (k ∈ (merge_dicts left right).map Prod.fst ↔
      k ∈ left.map Prod.fst ∨ k ∈ right.map Prod.fst) :=
  ⟨merge_dicts_get right left k hnd, mem_keys_merge_dicts right left k⟩

/-- Witness for C9: updating with a fresh key keeps the earlier entry. -/
theorem merge_dicts_right_biased_witness :
    (([("chunk_expansion", (2 : ℕ))].map Prod.fst).Nodup) ∧
    dictGet (merge_dicts [("context_judgement", (1 : ℕ))] [("chunk_expansion", 2)])
      "context_judgement" = some 1 := by
  have h := merge_dicts_right_biased [("context_judgement", (1 : ℕ))]
    [("chunk_expansion", 2)] "context_judgement" (by decide)
  refine ⟨by decide, ?_⟩
  rw [h.1]
  decide

/-- `structure_analyzer.py` — the completeness verdict consumed by the judge
(`is_complete`, `direction`, `reasons`, `front_issues`, `back_issues`). -/
structure Completeness where
  is_complete : Bool
  direction : String
  reasons : List String
  front_issues : List String
  back_issues : List String
  deriving Repr, DecidableEq

/-- A search-result dict as the judge reads it: `chunk_id`, `content` and
`metadata.get("expanded", False)`. -/
structure RDoc where
  chunk_id : ℤ
  content : String
  expanded : Bool
  deriving Repr, DecidableEq

/-- One entry of `chunks_to_expand` (`{"chunk_id": ..., "direction": ...,
"reasons": [...]}`; the LLM-only branch emits no `reasons` key, modelled as
`[]`). -/
structure ExpandReq where
  chunk_id : ℤ
  direction : String
  reasons : List String
  deriving Repr, DecidableEq

/-- The parsed result of `llm_sufficiency_check` (an LLM call — an oracle
parameter of the embedding). -/
structure LLMCheck where
  is_sufficient : Bool
  chunks_to_expand : List ℤ
  deriving Repr, DecidableEq

/-- The state keys `judge` writes (its returned dict carries no
`expansion_count` key). -/
structure JudgeOut where
  context_sufficient : Bool
  chunks_to_expand : List ExpandReq
  next_agent : String
  deriving Repr, DecidableEq

namespace ContextJudgementAgent

/-- `ContextJudgementAgent.MAX_EXPANSION_COUNT = 3`. -/
def MAX_EXPANSION_COUNT : ℕ := 3

/-- `ContextJudgementAgent.check_relevance_with_preprocessed`: with no
keywords the chunk counts as relevant; otherwise the fraction of keywords
occurring (lower-cased) in the content must reach `min_relevance`. -/
def check_relevance_with_preprocessed (expanded_terms : List String)
    (content : String) (min_relevance : ℚ) : Bool :=
  if expanded_terms.isEmpty then true
  else
    let matched := (expanded_terms.filter
      (fun term => pyIn (pyLower term) (pyLower content))).length
    decide ((matched : ℚ) / (expanded_terms.length : ℚ) ≥ min_relevance)

/-- `ContextJudgementAgent.should_expand_chunk`.  Python mutates the
completeness dict's `direction` in place; here the adjusted dict is returned
alongside the decision. -/
def should_expand_chunk (expanded_terms : List String) (result : RDoc)
    (completeness : Completeness) : Bool × Completeness :=
  if completeness.is_complete then (false, completeness)
  else if ¬ check_relevance_with_preprocessed expanded_terms result.content 0.3 then
    (false, completeness)
  else
    let c :=
      if completeness.direction = "both" then
        if ¬ completeness.front_issues.isEmpty ∧ completeness.back_issues.isEmpty then
          { completeness with direction := "prev" }
        else if ¬ completeness.back_issues.isEmpty ∧ completeness.front_issues.isEmpty then
          { completeness with direction := "next" }
        else if ¬ completeness.front_issues.isEmpty ∧ ¬ completeness.back_issues.isEmpty then
          { completeness with direction := "next" }
        else completeness
      else completeness
    (true, c)

/-- The judge's first-pass structural scan: skip already-expanded chunks, run
the structure analyzer, and collect the incomplete-and-relevant ones. -/
def structuralExpansion (structCheck : String → Completeness)
    (expanded_terms : List String) : List RDoc → List ExpandReq
  | [] => []
  | r :: rest =>
      if r.expanded then structuralExpansion structCheck expanded_terms rest
      else
        let compl := structCheck r.content
        if compl.is_complete = false then
          let se := should_expand_chunk expanded_terms r compl
          if se.1 then
            { chunk_id := r.chunk_id, direction := se.2.direction, reasons := se.2.reasons } ::
              structuralExpansion structCheck expanded_terms rest
          else structuralExpansion structCheck expanded_terms rest
        else structuralExpansion structCheck expanded_terms rest

/-- First pass: append each LLM-suggested chunk id not already collected,
with direction `"both"` and reason `"LLM 판단"`. -/
def addLLMChunks : List ExpandReq → List ℤ → List ExpandReq
  | base, [] => base
  | base, cid :: rest =>
      addLLMChunks
        (if base.any (fun c => c.chunk_id = cid) then base
         else base ++ [{ chunk_id := cid, direction := "both", reasons := ["LLM 판단"] }])
        rest

/-- `ContextJudgementAgent.judge` — the decision core.  External effects are
parameters: `enc` (tiktoken), `structCheck` (the structure analyzer) and
`llm` (the parsed LLM sufficiency check).  Branches, in source order: no
results; `expansion_count >= MAX_EXPANSION_COUNT`; token ceiling 10000 on
second-and-later passes; LLM-only on second-and-later passes (at most one
further chunk, direction `next`); first-pass structural + LLM union. -/
def judge (enc : String → ℕ) (structCheck : String → Completeness) (llm : LLMCheck)
    (expanded_terms : List String) (search_results : List RDoc)
    (expansion_count : ℕ) : JudgeOut :=
  if search_results.isEmpty then
    { context_sufficient := true, chunks_to_expand := [], next_agent := "answer_agent" }
  else if expansion_count ≥ MAX_EXPANSION_COUNT then
    { context_sufficient := true, chunks_to_expand := [], next_agent := "answer_agent" }
  else if expansion_count ≥ 1 ∧ (search_results.map (fun r => enc r.content)).sum > 10000 then
    { context_sufficient := true, chunks_to_expand := [], next_agent := "answer_agent" }
  else if expansion_count ≥ 1 then
    if llm.is_sufficient then
      { context_sufficient := true, chunks_to_expand := [], next_agent := "answer_agent" }
    else
      { context_sufficient := false,
        chunks_to_expand := (llm.chunks_to_expand.take 1).map
          (fun cid => { chunk_id := cid, direction := "next", reasons := [] }),
        next_agent := "chunk_expansion_agent" }
  else
    let chunks_needing := addLLMChunks
      (structuralExpansion structCheck expanded_terms search_results) llm.chunks_to_expand
    if chunks_needing.isEmpty ∧ llm.is_sufficient then
      { context_sufficient := true, chunks_to_expand := [], next_agent := "answer_agent" }
    else
      { context_sufficient := false, chunks_to_expand := chunks_needing,
        next_agent := "chunk_expansion_agent" }

end ContextJudgementAgent

/-- The three nodes of the judgement/expansion loop in `agents/graph.py`
(reached after `search_agent`). -/
inductive AgentNode
  | judge
  | expander
  | answer
  deriving Repr, DecidableEq

/-- The slice of `ISPLState` the loop reads and writes. -/
structure GState where
  node : AgentNode
  expansion_count : ℕ
  search_results : List RDoc
  chunks_to_expand : List ExpandReq
  context_sufficient : Option Bool
  deriving Repr, DecidableEq

namespace ContextJudgementAgent

/-- Merging a judge decision into the state, then the graph's
`route_after_judgement` conditional edge on `context_sufficient`.  The judge's
dict has no `expansion_count` key, so the count is unchanged. -/
def applyJudge (s : GState) (enc : String → ℕ) (structCheck : String → Completeness)
    (llm : LLMCheck) (terms : List String) : GState :=
  let out := judge enc structCheck llm terms s.search_results s.expansion_count
  { s with
    node := if out.context_sufficient then AgentNode.answer else AgentNode.expander,
    chunks_to_expand := out.chunks_to_expand,
    context_sufficient := some out.context_sufficient }

/-- One step of the loop.  Judge steps follow `route_after_judgement`; every
return path of `ChunkExpansionAgent.expand` (no chunks specified, successful
expansion, error) writes `expansion_count + 1`, and the graph's unconditional
edge `chunk_expansion_agent → context_judgement_agent` leads back to the
judge. -/
inductive GStep : GState → GState → Prop
  | judgeStep (s : GState) (enc : String → ℕ) (structCheck : String → Completeness)
      (llm : LLMCheck) (terms : List String) (h : s.node = AgentNode.judge) :
      GStep s (applyJudge s enc structCheck llm terms)
  | expandNoChunks (s : GState) (h : s.node = AgentNode.expander)
      (h2 : s.chunks_to_expand = []) :
      GStep s { s with node := AgentNode.judge, expansion_count := s.expansion_count + 1 }
  | expandSuccess (s : GState) (newResults : List RDoc)
      (h : s.node = AgentNode.expander) (h2 : s.chunks_to_expand ≠ []) :
      GStep s { s with node := AgentNode.judge, expansion_count := s.expansion_count + 1,
                       search_results := newResults, chunks_to_expand := [] }
  | expandError (s : GState) (h : s.node = AgentNode.expander) :
      GStep s { s with node := AgentNode.judge, expansion_count := s.expansion_count + 1 }

/-- Reflexive-transitive closure of `GStep`. -/
inductive Reaches : GState → GState → Prop
  | refl (s : GState) : Reaches s s
  | tail {s t u : GState} : Reaches s t → GStep t u → Reaches s u

/-- The state in which the judge first runs for a request
(`create_initial_state` sets `expansion_count = 0`; the graph edge
`search_agent → context_judgement_agent` delivers the retrieval results). -/
def initState (results : List RDoc) : GState :=
  { node := AgentNode.judge, expansion_count := 0, search_results := results,
    chunks_to_expand := [], context_sufficient := none }

theorem judge_forced (enc : String → ℕ) (structCheck : String → Completeness)
    (llm : LLMCheck) (terms : List String) (sr : List RDoc) (ec : ℕ)
    (h : MAX_EXPANSION_COUNT ≤ ec) :
    judge enc structCheck llm terms sr ec =
      { context_sufficient := true, chunks_to_expand := [], next_agent := "answer_agent" } := by
  unfold judge
  by_cases hs : sr.isEmpty
  · rw [if_pos hs]
  · rw [if_neg hs, if_pos h]

theorem judge_insufficient_lt (enc : String → ℕ) (structCheck : String → Completeness)
    (llm : LLMCheck) (terms : List String) (sr : List RDoc) (ec : ℕ)
    (h : (judge enc structCheck llm terms sr ec).context_sufficient = false) :
    ec < MAX_EXPANSION_COUNT := by
  by_contra hge
  push_neg at hge
  rw [judge_forced enc structCheck llm terms sr ec hge] at h
  simp at h

/-- The loop invariant: the count never exceeds the bound, and on entering the
expander there is still room for its increment. -/
def countInv (s : GState) : Prop :=
  s.expansion_count ≤ MAX_EXPANSION_COUNT ∧
  (s.node = AgentNode.expander → s.expansion_count + 1 ≤ MAX_EXPANSION_COUNT)

theorem step_countInv {s s' : GState} (hinv : countInv s) (hstep : GStep s s') :
    countInv s' := by
  cases hstep with
  | judgeStep enc structCheck llm terms h =>
      refine ⟨hinv.1, ?_⟩
      intro hnode
      unfold applyJudge at hnode ⊢
      simp only at hnode ⊢
      rcases hsuff : (judge enc structCheck llm terms s.search_results
          s.expansion_count).context_sufficient with _ | _
      · have := judge_insufficient_lt enc structCheck llm terms s.search_results
          s.expansion_count hsuff
        omega
      · rw [hsuff] at hnode
        simp at hnode
  | expandNoChunks h h2 => exact ⟨hinv.2 h, by intro hh; simp at hh⟩
  | expandSuccess newResults h h2 => exact ⟨hinv.2 h, by intro hh; simp at hh⟩
  | expandError h => exact ⟨hinv.2 h, by intro hh; simp at hh⟩

theorem reaches_countInv {res : List RDoc} {s : GState}
    (h : Reaches (initState res) s) : countInv s := by
  induction h with
  | refl => exact ⟨by norm_num [initState, MAX_EXPANSION_COUNT], by intro hh; simp [initState] at hh⟩
  | tail hreach hstep ih => exact step_countInv ih hstep

theorem step_monotone {s s' : GState} (hstep : GStep s s') :
    s.expansion_count ≤ s'.expansion_count := by
  cases hstep with
  | judgeStep enc structCheck llm terms h => exact Nat.le_refl _
  | expandNoChunks h h2 => exact Nat.le_succ _
  | expandSuccess newResults h h2 => exact Nat.le_succ _
  | expandError h => exact Nat.le_succ _

end ContextJudgementAgent

open ContextJudgementAgent in
/-- **C2** (bounded expansion loop, `ContextJudgementAgent.judge`,
`ChunkExpansionAgent.expand` and the graph wiring): `expansion_count` starts
at 0, no loop step ever decreases it, every state reachable in the
judgement/expansion loop keeps it at most `MAX_EXPANSION_COUNT = 3`, and
whenever the judge runs with `expansion_count ≥ 3` it forces
`context_sufficient = true` with an empty `chunks_to_expand`, routing to the
answer agent instead of the expander. -/
theorem expansion_count_bounded (results : List RDoc) (s s' : GState)
    (enc : String → ℕ) (structCheck : String → Completeness) (llm : LLMCheck)
    (terms : List String) (sr : List RDoc) (ec : ℕ) :
    MAX_EXPANSION_COUNT = 3 ∧
    (initState results).expansion_count = 0 ∧
    (Reaches (initState results) s → s.expansion_count ≤ MAX_EXPANSION_COUNT) ∧
    (GStep s s' → s.expansion_count ≤ s'.expansion_count) ∧
    (3 ≤ ec → judge enc structCheck llm terms sr ec =
      { context_sufficient := true, chunks_to_expand := [], next_agent := "answer_agent" }) ∧
    (3 ≤ s.expansion_count → s.node = AgentNode.judge →
      (applyJudge s enc structCheck llm terms).node = AgentNode.answer ∧
      (applyJudge s enc structCheck llm terms).chunks_to_expand = [] ∧
      (applyJudge s enc structCheck llm terms).context_sufficient = some true) := by
  refine ⟨rfl, rfl, ?_, ?_, ?_, ?_⟩
  · intro h
    exact (reaches_countInv h).1
  · exact step_monotone
  · intro h
    exact judge_forced enc structCheck llm terms sr ec h
  · intro hge _
    have hj := judge_forced enc structCheck llm terms s.search_results s.expansion_count hge
    unfold applyJudge
    rw [hj]
    exact ⟨rfl, rfl, rfl⟩

/-- A trivial tokenizer for witnesses. -/
def sampleEnc : String → ℕ := fun _ => 0

/-- A trivial structure analyzer for witnesses. -/
def sampleStructCheck : String → Completeness :=
  fun _ => { is_complete := true, direction := "none", reasons := [],
             front_issues := [], back_issues := [] }

/-- A trivial LLM verdict for witnesses. -/
def sampleLLM : LLMCheck := { is_sufficient := true, chunks_to_expand := [] }

/-- A judge-node state already at the expansion bound. -/
def sampleBoundaryState : GState :=
  { node := AgentNode.judge, expansion_count := 3, search_results := [],
    chunks_to_expand := [], context_sufficient := none }

open ContextJudgementAgent in
/-- Witness for C2: the initial state respects the bound, a judge step does
not decrease the count, and at the bound the judge routes to the answer
agent. -/
theorem expansion_count_bounded_witness :
    (initState ([] : List RDoc)).expansion_count ≤ MAX_EXPANSION_COUNT ∧
    (initState ([] : List RDoc)).expansion_count ≤
      (applyJudge (initState []) sampleEnc sampleStructCheck sampleLLM []).expansion_count ∧
    (applyJudge sampleBoundaryState sampleEnc sampleStructCheck sampleLLM []).node =
      AgentNode.answer := by
  have h1 := expansion_count_bounded [] (initState [])
    (applyJudge (initState []) sampleEnc sampleStructCheck sampleLLM [])
    sampleEnc sampleStructCheck sampleLLM [] [] 3
  have h2 := expansion_count_bounded [] sampleBoundaryState sampleBoundaryState
    sampleEnc sampleStructCheck sampleLLM [] [] 3
  exact ⟨h1.2.2.1 (Reaches.refl _),
    h1.2.2.2.1 (GStep.judgeStep _ sampleEnc sampleStructCheck sampleLLM [] rfl),
    (h2.2.2.2.2.2 (by norm_num [sampleBoundaryState]) rfl).1⟩

open ContextJudgementAgent in
/-- **C10** (implicit relevance-gate edge case,
`ContextJudgementAgent.check_relevance_with_preprocessed`): with an empty
`expanded_terms` list the keyword relevance check returns `True` for every
content and every threshold, so the 30%-keyword-overlap gate inside
`should_expand_chunk` never suppresses the expansion of a structurally
incomplete chunk when no keywords were extracted from the query. -/
theorem relevance_gate_empty_terms (content : String) (min_relevance : ℚ)
    (r : RDoc) (completeness : Completeness) :
    check_relevance_with_preprocessed [] content min_relevance = true ∧
    (completeness.is_complete = false →
      (should_expand_chunk [] r completeness).1 = true) := by
  constructor
  · simp [check_relevance_with_preprocessed]
  · intro h
    simp [should_expand_chunk, h, check_relevance_with_preprocessed]

open ContextJudgementAgent in
/-- Witness for C10: concrete content and an incomplete completeness verdict. -/
theorem relevance_gate_empty_terms_witness :
    check_relevance_with_preprocessed [] "제28조 신청은" 0.3 = true ∧
    (should_expand_chunk [] { chunk_id := 1, content := "제28조 신청은", expanded := false }
      { is_complete := false, direction := "both", reasons := [],
        front_issues := [], back_issues := [] }).1 = true := by
  have h := relevance_gate_empty_terms "제28조 신청은" 0.3
    { chunk_id := 1, content := "제28조 신청은", expanded := false }
    { is_complete := false, direction := "both", reasons := [],
      front_issues := [], back_issues := [] }
  exact ⟨h.1, h.2 rfl⟩
